import Mathlib

/-!
Shallow embedding of the core of `iplsd` (`src/scanner/scanner.go`).

The program maintains two file-backed stores:
* the Watchlist Store: a single text file (`Scanner.AddressFile`) holding one
  watched address per line, modelled here as its raw `String` content;
* the Timeout Store: a directory (`Scanner.TimeoutDir`) with one file per
  address whose content is a marshalled absolute expiration instant, modelled
  as a list of directory entries.

Time instants are modelled as `Int` (Go `time.Time` under `MarshalText` /
`UnmarshalText` round-trips losslessly, so a timeout file that parses is
identified with the instant it encodes; a file whose content does not parse
is modelled as `none`).

External hook commands (`add_command` / `delete_command`) are abstracted by
their success/failure outcome: a `Bool` that is `true` both when no hook is
configured and when the configured hook exits successfully, `false` when a
configured hook fails.
-/

namespace Iplsd

/-- Whitespace test used by `strings.TrimSpace` restricted to the ASCII
whitespace characters (space, tab, newline, carriage return, vertical tab,
form feed); Go additionally trims non-ASCII Unicode whitespace, which never
occurs in the inputs considered here. -/
def isSpaceChar (c : Char) : Bool :=
  c == ' ' || c == '\t' || c == '\n' || c == '\x0d' || c == '\x0b' || c == '\x0c'

/-- Model of `strings.TrimSpace` on the character list: drop leading and
trailing whitespace. -/
def trimCh (l : List Char) : List Char :=
  ((l.dropWhile isSpaceChar).reverse.dropWhile isSpaceChar).reverse

/-- Model of Go `strings.TrimSpace`. -/
def trimSpace (s : String) : String :=
  ⟨trimCh s.data⟩

/-- Split a character list at every newline, keeping a (possibly empty) final
fragment: raw splitting used by `bufio.Scanner` with `ScanLines`. -/
def splitOnNl : List Char → List (List Char)
  | [] => [[]]
  | c :: cs =>
    if c = '\n' then [] :: splitOnNl cs
    else
      match splitOnNl cs with
      | [] => [[c]]
      | l :: ls => (c :: l) :: ls

/-- Drop the final fragment when it is empty: `bufio.Scanner` does not emit a
line for the text after the last newline when that text is empty. -/
def dropFinalEmpty (ls : List (List Char)) : List (List Char) :=
  match ls.getLast? with
  | some [] => ls.dropLast
  | _ => ls

/-- Lines of a file content as produced by `bufio.Scanner` / `ScanLines`
(the per-line trailing carriage return stripping done by `ScanLines` is
subsumed by the `strings.TrimSpace` applied to every line at the use site). -/
def splitLines (s : String) : List String :=
  (dropFinalEmpty (splitOnNl s.data)).map String.mk

/-- Decimal digit test, Go regexp `\d`. -/
def isDigit (c : Char) : Bool :=
  '0' ≤ c && c ≤ '9'

/-- Consume exactly `n` digits from the front, returning the rest. -/
def consumeDigits : Nat → List Char → Option (List Char)
  | 0, cs => some cs
  | _ + 1, [] => none
  | n + 1, c :: cs => if isDigit c then consumeDigits n cs else none

/-- Consume a literal dot from the front. -/
def consumeDot : List Char → Option (List Char)
  | '.' :: cs => some cs
  | _ => none

/-- All remainders after consuming `\d{1,3}\.` from the front (one choice per
repetition count 1, 2, 3). -/
def groupDot (cs : List Char) : List (List Char) :=
  [1, 2, 3].filterMap (fun k => (consumeDigits k cs).bind consumeDot)

/-- Does `IP_PATTERN`, the regexp `((?:\d{1,3}\.){3}\d{1,3})`, match starting
exactly at the head of `cs`? (For a match to exist the final `\d{1,3}` only
needs its mandatory first digit.) -/
def ipMatchFrom (cs : List Char) : Bool :=
  (groupDot cs).any fun cs1 =>
    (groupDot cs1).any fun cs2 =>
      (groupDot cs2).any fun cs3 =>
        match cs3 with
        | c :: _ => isDigit c
        | [] => false

/-- Model of `IP_PATTERN.MatchString`: the pattern
`((?:\d{1,3}\.){3}\d{1,3})` matches somewhere in `s` (Go regexp matching is
unanchored, so this is a substring match with no numeric range check). -/
def ipMatchString (s : String) : Bool :=
  (List.range (s.data.length + 1)).any fun i => ipMatchFrom (s.data.drop i)

/-- Error message produced by `readAddressFile` for a malformed line (the Go
code quotes the address and appends the file path; the offending address text
is the part that matters here). -/
def badAddressMsg (addr : String) : String :=
  "unexpected address " ++ addr ++ " found in address list file"

/-- Line loop of `Scanner.readAddressFile`: trim each line, skip empty lines,
keep a line verbatim when `IP_PATTERN` matches it, fail on the first line
that does not match. -/
def readAddrLines : List String → Except String (List String)
  | [] => .ok []
  | line :: rest =>
    if trimSpace line = "" then readAddrLines rest
    else if ipMatchString (trimSpace line) then
      match readAddrLines rest with
      | .error e => .error e
      | .ok addrs => .ok (trimSpace line :: addrs)
    else .error (badAddressMsg (trimSpace line))

/-- Model of `Scanner.readAddressFile` on the Watchlist Store file content. -/
def readAddressFile (content : String) : Except String (List String) :=
  readAddrLines (splitLines content)

/-- Character-level model of `strings.Join(addrs, "\n")`: the fragments
separated by single newlines. -/
def joinNl : List (List Char) → List Char
  | [] => []
  | [l] => l
  | l :: ls => l ++ '\n' :: joinNl ls

/-- Model of the `os.WriteFile(s.AddressFile, []byte(strings.Join(addrs, "\n")+"\n"), 0600)`
write in `addAddress` / `removeAddress`: the content written for a given
address list. -/
def writeAddressFile (addrs : List String) : String :=
  ⟨joinNl (addrs.map String.data) ++ ['\n']⟩

/-- Model of `Scanner.addAddress`. The first argument abstracts the optional
add hook (`s.AddCommand`): `true` when no hook is configured or the hook
succeeds, `false` when a configured hook fails. Returns the action string and
the resulting Watchlist Store content. -/
def addAddress (hookOk : Bool) (content addr : String) :
    Except String (String × String) :=
  if hookOk = false then .error "add hook failed"
  else
    match readAddressFile content with
    | .error e => .error e
    | .ok addrs =>
      if addrs.contains addr then .ok ("already present in", content)
      else .ok ("added to", writeAddressFile (addrs ++ [addr]))

/-- Model of `Scanner.removeAddress`. The first argument abstracts the
optional delete hook (`s.DeleteCommand`) exactly as in `addAddress`. The Go
code removes the element at `slices.Index(addrs, addr)`, i.e. the first
occurrence. -/
def removeAddress (hookOk : Bool) (content addr : String) :
    Except String (String × String) :=
  if hookOk = false then .error "delete hook failed"
  else
    match readAddressFile content with
    | .error e => .error e
    | .ok addrs =>
      if addrs.contains addr = false then .ok ("not present in", content)
      else .ok ("deleted from", writeAddressFile (addrs.eraseIdx (addrs.indexOf addr)))

/-- One directory entry of the Timeout Store (`os.ReadDir(s.TimeoutDir)`):
its file name (the address), whether it is a regular file
(`entry.Type().IsRegular()`), and its content — `some exp` when the file
content unmarshals to the instant `exp`, `none` when unmarshalling fails.
Non-regular entries are never read, so their `content` field is arbitrary. -/
structure DirEntry where
  name : String
  regular : Bool
  content : Option Int
deriving DecidableEq, Repr

/-- Joint state of the two file-backed stores: the Watchlist Store file
content and the Timeout Store directory listing. -/
structure ScanState where
  watchlist : String
  timeouts : List DirEntry
deriving DecidableEq, Repr

/-- Model of `os.WriteFile` on a timeout file: overwrite the content of every
entry named `addr` (file names are unique in a real directory), or create the
file when absent. -/
def upsertTimeout (entries : List DirEntry) (addr : String) (exp : Int) :
    List DirEntry :=
  if entries.any (fun e => e.name = addr) then
    entries.map fun e =>
      if e.name = addr then { e with regular := true, content := some exp } else e
  else entries ++ [⟨addr, true, some exp⟩]

/-- Content of the timeout file for `addr`, when present. -/
def lookupTimeout (entries : List DirEntry) (addr : String) : Option Int :=
  match entries.find? (fun e => e.name = addr) with
  | some e => e.content
  | none => none

/-- Model of `Scanner.writeTimeoutFile`: write `now + AddressTimeout` as the
expiration for `addr` (`expiration := time.Now().Add(s.AddressTimeout)`). -/
def writeTimeoutFile (now timeout : Int) (st : ScanState) (addr : String) :
    ScanState :=
  { st with timeouts := upsertTimeout st.timeouts addr (now + timeout) }

/-- Model of `Scanner.deleteTimeoutFile` (`os.Remove`): fails when the file
is absent, otherwise removes every entry with that name (unique in a real
directory). -/
def deleteTimeoutFile (entries : List DirEntry) (addr : String) :
    Except String (List DirEntry) :=
  if entries.any (fun e => e.name = addr) then
    .ok (entries.filter fun e => e.name ≠ addr)
  else .error "remove: no such file"

/-- Collection phase of one reaper tick: walk the directory listing in order;
non-regular entries are skipped; a regular file whose content does not
unmarshal is a fatal error; a regular file is expired when
`time.Now().Compare(expiration) >= 0`, i.e. `now ≥ exp`. Returns the expired
addresses in discovery order. -/
def collectExpired (now : Int) : List DirEntry → Except String (List String)
  | [] => .ok []
  | e :: rest =>
    if e.regular then
      match e.content with
      | none => .error ("reaper: failed unmarshalling expiration from " ++ e.name)
      | some exp =>
        if now ≥ exp then
          match collectExpired now rest with
          | .error err => .error err
          | .ok addrs => .ok (e.name :: addrs)
        else collectExpired now rest
    else collectExpired now rest

/-- Removal phase of one reaper tick: for each expired address in order, run
`removeAddress` (with its delete hook) on the Watchlist Store, then delete
the timeout file. An error aborts the tick, leaving the state reached so
far; `hookOk` gives the delete-hook outcome per address. -/
def reapExpired (hookOk : String → Bool) :
    List String → ScanState → ScanState × Option String
  | [], st => (st, none)
  | addr :: rest, st =>
    match removeAddress (hookOk addr) st.watchlist addr with
    | .error e => (st, some ("reaper: removeAddress failed: " ++ e))
    | .ok (_, wl) =>
      match deleteTimeoutFile st.timeouts addr with
      | .error e => ({ st with watchlist := wl }, some e)
      | .ok ts => reapExpired hookOk rest ⟨wl, ts⟩

/-- One full tick of `Scanner.reaper`: list the Timeout Store, collect the
expired addresses, then remove each from both stores. -/
def sweepTick (hookOk : String → Bool) (now : Int) (st : ScanState) :
    ScanState × Option String :=
  match collectExpired now st.timeouts with
  | .error e => (st, some e)
  | .ok expired => reapExpired hookOk expired st

/-- Per-match body of the `Scanner.scanner` loop (lines 364-379): first
refresh the timeout file for the matched address, then `addAddress` (which
runs the add hook before touching the watchlist). On error the state already
mutated is kept (the timeout write is not rolled back). -/
def processMatch (hookOk : Bool) (now timeout : Int) (st : ScanState)
    (addr : String) : ScanState × Except String String :=
  let st1 := writeTimeoutFile now timeout st addr
  match addAddress hookOk st1.watchlist addr with
  | .error e => (st1, .error ("scanner: addAddress: " ++ e))
  | .ok (action, wl) => ({ st1 with watchlist := wl }, .ok action)

/-- A configured pattern, abstracted by the result of
`pattern.FindStringSubmatch(line)` restricted to its first capturing group:
`some addr` exactly when `len(match) > 1`, in which case `addr = match[1]`. -/
def Pattern : Type := String → Option String

/-- Per-line body of the `Scanner.scanner` loop: iterate over ALL configured
patterns in order (the loop has no break), processing the captured address of
every pattern that matches; an error aborts the remaining patterns. Returns
the final state, the addresses processed in order, and the error if any. -/
def processLine (hookOk : String → Bool) (now timeout : Int) :
    List Pattern → String → ScanState → ScanState × List String × Option String
  | [], _, st => (st, [], none)
  | p :: rest, line, st =>
    match p line with
    | none => processLine hookOk now timeout rest line st
    | some addr =>
      match processMatch (hookOk addr) now timeout st addr with
      | (st1, .error e) => (st1, [addr], some e)
      | (st1, .ok _) =>
        match processLine hookOk now timeout rest line st1 with
        | (st2, trace, err) => (st2, addr :: trace, err)

/-- Startup reconciliation loop of `NewScanner` (lines 110-121): read the
Watchlist Store (fatal error when a line is malformed), then synthesize a
fresh timeout record for every address lacking one (`IsFile` is a
regular-file check). -/
def initScanner (now timeout : Int) (wlContent : String)
    (timeouts : List DirEntry) : Except String ScanState :=
  match readAddressFile wlContent with
  | .error e => .error e
  | .ok addrs =>
    .ok ⟨wlContent,
      addrs.foldl
        (fun ts a =>
          if ts.any (fun e => e.name = a && e.regular) then ts
          else ts ++ [⟨a, true, some (now + timeout)⟩])
        timeouts⟩

/-- State seen by the shutdown coordinator (`Scanner.shutdown`): the
idempotency marker stored under key "shutdown" in `s.active`, the three
worker registrations in `s.active`, whether a tail subprocess is registered
(`s.tail` non-nil with a started process), a counter of kill/wait teardown
executions, and the stop notifications sent so far in order. The
`shutdownLock` mutex serializes every execution of the body, so concurrent
invocations are modelled as sequential composition in an arbitrary order. -/
structure CoordState where
  marker : Option String
  activeReaper : Bool
  activeScanner : Bool
  activeHandler : Bool
  tailRegistered : Bool
  teardownCount : Nat
  stops : List String
deriving DecidableEq, Repr

/-- Body of `Scanner.shutdown(caller)` under the lock: return immediately
when the marker is set; otherwise store the marker, kill and wait the tail
subprocess if registered, then send a stop notification to each worker still
marked active, in the fixed order reaper, scanner, handler. -/
def shutdown (st : CoordState) (caller : String) : CoordState :=
  match st.marker with
  | some _ => st
  | none =>
    let st1 := { st with marker := some caller }
    let st2 :=
      if st1.tailRegistered then
        { st1 with tailRegistered := false, teardownCount := st1.teardownCount + 1 }
      else st1
    let st3 :=
      if st2.activeReaper then { st2 with stops := st2.stops ++ ["reaper"] } else st2
    let st4 :=
      if st3.activeScanner then { st3 with stops := st3.stops ++ ["scanner"] } else st3
    if st4.activeHandler then { st4 with stops := st4.stops ++ ["handler"] } else st4

/-- Well-formedness of a single stored address, as established by
`readAddressFile` for every address it returns: nonempty, free of newlines,
already trimmed, and matched by `IP_PATTERN`. -/
def goodAddr (a : String) : Prop :=
  a ≠ "" ∧ '\n' ∉ a.data ∧ trimSpace a = a ∧ ipMatchString a = true

/-- Names of the Timeout Store entries a reaper tick classifies expired:
regular files whose content parses and is not in the future. -/
def expiredNames (now : Int) (ts : List DirEntry) : List String :=
  (ts.filter fun e =>
    e.regular && match e.content with
      | some exp => decide (now ≥ exp)
      | none => false).map DirEntry.name

/- ### Lemmas on trimming -/

theorem trimCh_eq_rdropWhile (l : List Char) :
    trimCh l = (l.dropWhile isSpaceChar).rdropWhile isSpaceChar := rfl

theorem mem_trimCh {c : Char} {l : List Char} (h : c ∈ trimCh l) : c ∈ l := by
  rw [trimCh_eq_rdropWhile] at h
  exact (List.dropWhile_suffix isSpaceChar).sublist.mem
    ((List.rdropWhile_prefix _ _).sublist.mem h)

theorem dropWhile_prefix_self {p : Char → Bool} {u v : List Char}
    (hpre : v <+: u) (hu : u.dropWhile p = u) : v.dropWhile p = v := by
  cases v with
  | nil => rfl
  | cons c w =>
    obtain ⟨t, ht⟩ := hpre
    have hc : p c = false := by
      subst ht
      simp only [List.cons_append] at hu
      rw [List.dropWhile_cons] at hu
      by_contra hpc
      rw [if_pos (by simpa using hpc)] at hu
      have hlen := congrArg List.length hu
      have hle := (List.dropWhile_suffix (l := w ++ t) p).sublist.length_le
      simp only [List.length_cons] at hlen
      omega
    rw [List.dropWhile_cons, hc]
    simp

theorem trimCh_idempotent (l : List Char) : trimCh (trimCh l) = trimCh l := by
  rw [trimCh_eq_rdropWhile, trimCh_eq_rdropWhile]
  have h1 : (l.dropWhile isSpaceChar).dropWhile isSpaceChar = l.dropWhile isSpaceChar :=
    List.dropWhile_idempotent isSpaceChar l
  have hpre : ((l.dropWhile isSpaceChar).rdropWhile isSpaceChar) <+: l.dropWhile isSpaceChar :=
    List.rdropWhile_prefix _ _
  rw [dropWhile_prefix_self hpre h1]
  exact List.rdropWhile_idempotent isSpaceChar _

theorem trimSpace_idempotent (s : String) : trimSpace (trimSpace s) = trimSpace s := by
  unfold trimSpace
  exact congrArg String.mk (trimCh_idempotent s.data)

/- ### Lemmas on line splitting and joining -/

theorem splitOnNl_ne_nil (cs : List Char) : splitOnNl cs ≠ [] := by
  induction cs with
  | nil => simp [splitOnNl]
  | cons c cs ih =>
    rw [splitOnNl]
    split
    · simp
    · match h : splitOnNl cs with
      | [] => simp
      | l :: ls => simp

theorem mem_splitOnNl_no_nl {l : List Char} {cs : List Char}
    (h : l ∈ splitOnNl cs) : '\n' ∉ l := by
  induction cs generalizing l with
  | nil =>
    simp [splitOnNl] at h
    simp [h]
  | cons c cs ih =>
    rw [splitOnNl] at h
    split at h
    · rcases List.mem_cons.mp h with h1 | h1
      · simp [h1]
      · exact ih h1
    · rename_i hc
      revert h
      match hs : splitOnNl cs with
      | [] =>
        intro h
        simp at h
        simp [h]
        exact fun hx => hc hx.symm
      | m :: ms =>
        intro h
        rcases List.mem_cons.mp h with h1 | h1
        · subst h1
          intro hmem
          rcases List.mem_cons.mp hmem with h2 | h2
          · exact hc h2.symm
          · exact ih (by rw [hs]; exact List.mem_cons_self m ms) h2
        · exact ih (by rw [hs]; exact List.mem_cons_of_mem m h1)

theorem splitOnNl_append_nl {l : List Char} (cs : List Char) (h : '\n' ∉ l) :
    splitOnNl (l ++ '\n' :: cs) = l :: splitOnNl cs := by
  induction l with
  | nil => simp [splitOnNl]
  | cons c m ih =>
    have hc : c ≠ '\n' := fun hcc => h (hcc ▸ List.mem_cons_self c m)
    have hm : '\n' ∉ m := fun hmm => h (List.mem_cons.mpr (Or.inr hmm))
    rw [List.cons_append, splitOnNl, if_neg hc, ih hm]

theorem splitOnNl_joinNl (ls : List (List Char)) (hne : ls ≠ [])
    (h : ∀ l ∈ ls, '\n' ∉ l) :
    splitOnNl (joinNl ls ++ ['\n']) = ls ++ [[]] := by
  induction ls with
  | nil => exact absurd rfl hne
  | cons l ls ih =>
    cases ls with
    | nil =>
      have hl : '\n' ∉ l := h l (List.mem_cons_self l [])
      show splitOnNl (l ++ '\n' :: []) = [l, []]
      rw [splitOnNl_append_nl [] hl]
      rfl
    | cons m ms =>
      have hl : '\n' ∉ l := h l (List.mem_cons_self _ _)
      have hrest : ∀ x ∈ m :: ms, '\n' ∉ x := fun x hx =>
        h x (List.mem_cons.mpr (Or.inr hx))
      have : joinNl (l :: m :: ms) ++ ['\n'] = l ++ '\n' :: (joinNl (m :: ms) ++ ['\n']) := by
        show (l ++ '\n' :: joinNl (m :: ms)) ++ ['\n'] = _
        simp
      rw [this, splitOnNl_append_nl _ hl, ih (by simp) hrest]
      rfl

theorem mk_data (s : String) : String.mk s.data = s := rfl

theorem dropFinalEmpty_concat_empty (xs : List (List Char)) :
    dropFinalEmpty (xs ++ [[]]) = xs := by
  unfold dropFinalEmpty
  rw [List.getLast?_concat]
  exact List.dropLast_concat

theorem splitLines_writeAddressFile (addrs : List String) (hne : addrs ≠ [])
    (h : ∀ a ∈ addrs, '\n' ∉ a.data) :
    splitLines (writeAddressFile addrs) = addrs := by
  unfold splitLines writeAddressFile
  have hmapne : addrs.map String.data ≠ [] := by
    intro hcon
    exact hne (List.map_eq_nil_iff.mp hcon)
  have hmapnl : ∀ l ∈ addrs.map String.data, '\n' ∉ l := by
    intro l hl
    obtain ⟨a, ha, rfl⟩ := List.mem_map.mp hl
    exact h a ha
  show (dropFinalEmpty (splitOnNl (joinNl (addrs.map String.data) ++ ['\n']))).map String.mk = addrs
  rw [splitOnNl_joinNl _ hmapne hmapnl, dropFinalEmpty_concat_empty, List.map_map]
  have : addrs.map (String.mk ∘ String.data) = addrs.map id :=
    List.map_congr_left fun a _ => rfl
  rw [this, List.map_id]

/- ### Lemmas on reading the Watchlist Store -/

theorem mem_dropFinalEmpty {m : List Char} {ls : List (List Char)}
    (h : m ∈ dropFinalEmpty ls) : m ∈ ls := by
  unfold dropFinalEmpty at h
  split at h
  · exact (List.dropLast_sublist ls).mem h
  · exact h

theorem mem_splitLines_no_nl {s : String} {l : String} (h : l ∈ splitLines s) :
    '\n' ∉ l.data := by
  unfold splitLines at h
  obtain ⟨m, hm, rfl⟩ := List.mem_map.mp h
  exact mem_splitOnNl_no_nl (mem_dropFinalEmpty hm)

theorem readAddrLines_good (lines : List String) :
    ∀ addrs, readAddrLines lines = .ok addrs → (∀ l ∈ lines, '\n' ∉ l.data) →
      ∀ a ∈ addrs, goodAddr a := by
  induction lines with
  | nil =>
    intro addrs h _ a ha
    simp only [readAddrLines] at h
    cases h
    simp at ha
  | cons line rest ih =>
    intro addrs h hnl a ha
    simp only [readAddrLines] at h
    by_cases h0 : trimSpace line = ""
    · rw [if_pos h0] at h
      exact ih addrs h (fun l hl => hnl l (List.mem_cons_of_mem _ hl)) a ha
    · rw [if_neg h0] at h
      by_cases hip : ipMatchString (trimSpace line) = true
      · rw [if_pos hip] at h
        cases hrest : readAddrLines rest with
        | error e => rw [hrest] at h; cases h
        | ok addrs1 =>
          rw [hrest] at h
          cases h
          rcases List.mem_cons.mp ha with rfl | hmem
          · refine ⟨h0, ?_, trimSpace_idempotent line, hip⟩
            intro hnlmem
            exact hnl line (List.mem_cons_self _ _) (mem_trimCh hnlmem)
          · exact ih addrs1 hrest (fun l hl => hnl l (List.mem_cons_of_mem _ hl)) a hmem
      · rw [if_neg hip] at h
        cases h

theorem readAddressFile_good {content : String} {addrs : List String}
    (h : readAddressFile content = .ok addrs) : ∀ a ∈ addrs, goodAddr a :=
  readAddrLines_good _ _ h (fun _ hl => mem_splitLines_no_nl hl)

theorem readAddrLines_self (addrs : List String) (h : ∀ a ∈ addrs, goodAddr a) :
    readAddrLines addrs = .ok addrs := by
  induction addrs with
  | nil => rfl
  | cons a rest ih =>
    obtain ⟨hne, hnl, htrim, hip⟩ := h a (List.mem_cons_self _ _)
    simp only [readAddrLines]
    rw [htrim, if_neg hne, if_pos hip, ih (fun b hb => h b (List.mem_cons_of_mem _ hb))]

theorem readAddressFile_writeAddressFile (addrs : List String)
    (h : ∀ a ∈ addrs, goodAddr a) :
    readAddressFile (writeAddressFile addrs) = .ok addrs := by
  cases addrs with
  | nil => rfl
  | cons a rest =>
    unfold readAddressFile
    rw [splitLines_writeAddressFile _ (by simp) (fun x hx => (h x hx).2.1)]
    exact readAddrLines_self _ h

/- ### Lemmas on adding and removing addresses -/

theorem contains_true_of_mem {addrs : List String} {a : String} (h : a ∈ addrs) :
    addrs.contains a = true := List.elem_eq_true_of_mem h

theorem contains_false_of_not_mem {addrs : List String} {a : String} (h : a ∉ addrs) :
    addrs.contains a = false := by
  cases hc : addrs.contains a
  · rfl
  · exact absurd (List.mem_of_elem_eq_true hc) h

theorem addAddress_present {content addr : String} {addrs : List String}
    (hr : readAddressFile content = .ok addrs) (hmem : addr ∈ addrs) :
    addAddress true content addr = .ok ("already present in", content) := by
  unfold addAddress
  rw [if_neg (by simp), hr]
  simp only [contains_true_of_mem hmem, if_true]

theorem addAddress_absent {content addr : String} {addrs : List String}
    (hr : readAddressFile content = .ok addrs) (hmem : addr ∉ addrs) :
    addAddress true content addr = .ok ("added to", writeAddressFile (addrs ++ [addr])) := by
  unfold addAddress
  rw [if_neg (by simp), hr]
  simp only [contains_false_of_not_mem hmem, Bool.false_eq_true, if_false]

theorem removeAddress_present {content addr : String} {addrs : List String}
    (hr : readAddressFile content = .ok addrs) (hmem : addr ∈ addrs) :
    removeAddress true content addr = .ok ("deleted from", writeAddressFile (addrs.erase addr)) := by
  unfold removeAddress
  rw [if_neg (by simp), hr]
  simp only [contains_true_of_mem hmem, List.eraseIdx_indexOf_eq_erase]
  rw [if_neg (by simp)]

theorem removeAddress_absent {content addr : String} {addrs : List String}
    (hr : readAddressFile content = .ok addrs) (hmem : addr ∉ addrs) :
    removeAddress true content addr = .ok ("not present in", content) := by
  unfold removeAddress
  rw [if_neg (by simp), hr]
  simp only [contains_false_of_not_mem hmem, if_true]

/- ### Lemmas on the Timeout Store -/

theorem lookupTimeout_upsert (t : List DirEntry) (a : String) (exp : Int) :
    lookupTimeout (upsertTimeout t a exp) a = some exp := by
  induction t with
  | nil => simp [upsertTimeout, lookupTimeout, List.find?]
  | cons e t ih =>
    by_cases he : e.name = a
    · have hany : ((e :: t).any fun x => decide (x.name = a)) = true := by simp [he]
      simp only [upsertTimeout, hany, if_true, List.map_cons, if_pos he]
      simp only [lookupTimeout]
      rw [List.find?_cons_of_pos _ (by simp [he])]
    · by_cases hany : (t.any fun x => decide (x.name = a)) = true
      · have hall : ((e :: t).any fun x => decide (x.name = a)) = true := by
          simp [List.any_cons, hany]
        simp only [upsertTimeout, hall, if_true, List.map_cons, if_neg he]
        simp only [lookupTimeout]
        rw [List.find?_cons_of_neg _ (by simpa using he)]
        have h2 := ih
        simp only [upsertTimeout, hany, if_true] at h2
        simpa only [lookupTimeout] using h2
      · have hall : ((e :: t).any fun x => decide (x.name = a)) = false := by
          simp only [List.any_cons, Bool.or_eq_false_iff]
          exact ⟨by simpa using he, by simpa using hany⟩
        simp only [upsertTimeout, hall, Bool.false_eq_true, if_false, List.cons_append]
        simp only [lookupTimeout]
        rw [List.find?_cons_of_neg _ (by simpa using he)]
        have h2 := ih
        simp only [upsertTimeout, hany, Bool.false_eq_true, if_false] at h2
        simpa only [lookupTimeout] using h2

/- ### Lemmas on the shutdown coordinator -/

theorem shutdown_of_some {st : CoordState} (h : st.marker.isSome = true) (c : String) :
    shutdown st c = st := by
  unfold shutdown
  cases hm : st.marker with
  | some m => rfl
  | none => rw [hm] at h; cases h

theorem shutdown_first (st : CoordState) (c : String) (h : st.marker = none) :
    shutdown st c =
      ⟨some c, st.activeReaper, st.activeScanner, st.activeHandler, false,
        st.teardownCount + (if st.tailRegistered then 1 else 0),
        st.stops ++
          ((if st.activeReaper then ["reaper"] else []) ++
            (if st.activeScanner then ["scanner"] else []) ++
            (if st.activeHandler then ["handler"] else []))⟩ := by
  obtain ⟨m, ar, asc, ah, tr, tc, sp⟩ := st
  cases h
  cases tr <;> cases ar <;> cases asc <;> cases ah <;> simp [shutdown]

theorem foldl_shutdown_stable (l : List String) (st : CoordState)
    (h : st.marker.isSome = true) : List.foldl shutdown st l = st := by
  induction l with
  | nil => rfl
  | cons x xs ih =>
    rw [List.foldl_cons, shutdown_of_some h x]
    exact ih

theorem readAddrLines_keeps (lines : List String)
    (h : ∀ l ∈ lines, trimSpace l = "" ∨ ipMatchString (trimSpace l) = true) :
    readAddrLines lines = .ok (((lines.map trimSpace).filter (fun a => a ≠ ""))) := by
  induction lines with
  | nil => rfl
  | cons line rest ih =>
    have hrest := ih fun l hl => h l (List.mem_cons_of_mem _ hl)
    by_cases h0 : trimSpace line = ""
    · simp only [readAddrLines, if_pos h0, hrest, List.map_cons, List.filter_cons]
      rw [h0]
      simp
    · have hip : ipMatchString (trimSpace line) = true :=
        (h line (List.mem_cons_self _ _)).resolve_left h0
      simp only [readAddrLines, if_neg h0, if_pos hip, hrest, List.map_cons, List.filter_cons]
      rw [if_pos (by simpa using h0)]

theorem readAddrLines_bad (lines : List String)
    (h : ∃ l ∈ lines, trimSpace l ≠ "" ∧ ipMatchString (trimSpace l) = false) :
    ∃ b, b ≠ "" ∧ ipMatchString b = false ∧ (∃ l ∈ lines, b = trimSpace l) ∧
      readAddrLines lines = .error (badAddressMsg b) := by
  induction lines with
  | nil => simp at h
  | cons line rest ih =>
    by_cases h0 : trimSpace line = ""
    · have hw : ∃ l ∈ rest, trimSpace l ≠ "" ∧ ipMatchString (trimSpace l) = false := by
        obtain ⟨l, hl, hne, hfalse⟩ := h
        rcases List.mem_cons.mp hl with rfl | hl2
        · exact absurd h0 hne
        · exact ⟨l, hl2, hne, hfalse⟩
      obtain ⟨b, h1, h2, ⟨l, hl, hb⟩, h4⟩ := ih hw
      exact ⟨b, h1, h2, ⟨l, List.mem_cons_of_mem _ hl, hb⟩, by
        simp only [readAddrLines, if_pos h0]; exact h4⟩
    · by_cases hip : ipMatchString (trimSpace line) = true
      · have hw : ∃ l ∈ rest, trimSpace l ≠ "" ∧ ipMatchString (trimSpace l) = false := by
          obtain ⟨l, hl, hne, hfalse⟩ := h
          rcases List.mem_cons.mp hl with rfl | hl2
          · rw [hip] at hfalse; cases hfalse
          · exact ⟨l, hl2, hne, hfalse⟩
        obtain ⟨b, h1, h2, ⟨l, hl, hb⟩, h4⟩ := ih hw
        exact ⟨b, h1, h2, ⟨l, List.mem_cons_of_mem _ hl, hb⟩, by
          simp only [readAddrLines, if_neg h0, if_pos hip, h4]⟩
      · refine ⟨trimSpace line, h0, by simpa using hip,
          ⟨line, List.mem_cons_self _ _, rfl⟩, ?_⟩
        simp only [readAddrLines, if_neg h0, if_neg hip]

/- ### Lemmas on the reaper -/

theorem collectExpired_skip (now : Int) (e : DirEntry) (hreg : e.regular = false)
    (l1 l2 : List DirEntry) :
    collectExpired now (l1 ++ e :: l2) = collectExpired now (l1 ++ l2) := by
  induction l1 with
  | nil =>
    show collectExpired now (e :: l2) = collectExpired now l2
    simp only [collectExpired, hreg, Bool.false_eq_true, if_false]
  | cons x l1 ih =>
    simp only [List.cons_append, collectExpired, List.append_eq] at ih ⊢
    rw [ih]

theorem collectExpired_names (now : Int) (ts : List DirEntry) :
    ∀ addrs, collectExpired now ts = .ok addrs →
      ∀ a ∈ addrs, ∃ x ∈ ts, x.name = a ∧ x.regular = true := by
  induction ts with
  | nil =>
    intro addrs h a ha
    simp only [collectExpired] at h
    cases h
    simp at ha
  | cons x rest ih =>
    intro addrs h a ha
    simp only [collectExpired] at h
    by_cases hx : x.regular = true
    · rw [if_pos hx] at h
      cases hc : x.content with
      | none => simp only [hc] at h; cases h
      | some exp =>
        simp only [hc] at h
        by_cases hnow : now ≥ exp
        · rw [if_pos hnow] at h
          cases hrec : collectExpired now rest with
          | error err => rw [hrec] at h; cases h
          | ok tailAddrs =>
            rw [hrec] at h
            cases h
            rcases List.mem_cons.mp ha with rfl | hmem
            · exact ⟨x, List.mem_cons_self _ _, rfl, hx⟩
            · obtain ⟨y, hy, hya, hyr⟩ := ih tailAddrs hrec a hmem
              exact ⟨y, List.mem_cons_of_mem _ hy, hya, hyr⟩
        · rw [if_neg hnow] at h
          obtain ⟨y, hy, hya, hyr⟩ := ih addrs h a ha
          exact ⟨y, List.mem_cons_of_mem _ hy, hya, hyr⟩
    · rw [if_neg hx] at h
      obtain ⟨y, hy, hya, hyr⟩ := ih addrs h a ha
      exact ⟨y, List.mem_cons_of_mem _ hy, hya, hyr⟩

theorem reapExpired_middle (hookOk : String → Bool) (e : DirEntry) :
    ∀ (exp : List String) (wl : String) (l1 l2 : List DirEntry),
      (∀ a ∈ exp, a ≠ e.name) →
      ∃ m1 m2,
        (reapExpired hookOk exp ⟨wl, l1 ++ l2⟩).1.timeouts = m1 ++ m2 ∧
        reapExpired hookOk exp ⟨wl, l1 ++ e :: l2⟩ =
          (⟨(reapExpired hookOk exp ⟨wl, l1 ++ l2⟩).1.watchlist, m1 ++ e :: m2⟩,
            (reapExpired hookOk exp ⟨wl, l1 ++ l2⟩).2) := by
  intro exp
  induction exp with
  | nil =>
    intro wl l1 l2 _
    exact ⟨l1, l2, rfl, rfl⟩
  | cons a rest ih =>
    intro wl l1 l2 hne
    have hane : e.name ≠ a := fun hcc => hne a (List.mem_cons_self _ _) hcc.symm
    cases hrm : removeAddress (hookOk a) wl a with
    | error err =>
      refine ⟨l1, l2, ?_, ?_⟩ <;> simp only [reapExpired, hrm]
    | ok p =>
      obtain ⟨act, wl1⟩ := p
      have hany : ((l1 ++ e :: l2).any fun x => decide (x.name = a)) =
          ((l1 ++ l2).any fun x => decide (x.name = a)) := by
        simp [List.any_append, List.any_cons, hane]
      cases hdel : ((l1 ++ l2).any fun x => decide (x.name = a)) with
      | false =>
        refine ⟨l1, l2, ?_, ?_⟩ <;>
          simp only [reapExpired, hrm, deleteTimeoutFile, hany, hdel,
            Bool.false_eq_true, if_false]
      | true =>
        have hfile : (l1 ++ e :: l2).filter (fun x => x.name ≠ a) =
            l1.filter (fun x => x.name ≠ a) ++ e :: l2.filter (fun x => x.name ≠ a) := by
          rw [List.filter_append, List.filter_cons]
          simp [hane]
        have hfilb : (l1 ++ l2).filter (fun x => x.name ≠ a) =
            l1.filter (fun x => x.name ≠ a) ++ l2.filter (fun x => x.name ≠ a) := by
          rw [List.filter_append]
        obtain ⟨m1, m2, hm, heq⟩ := ih wl1 (l1.filter (fun x => x.name ≠ a))
          (l2.filter (fun x => x.name ≠ a)) (fun b hb => hne b (List.mem_cons_of_mem _ hb))
        refine ⟨m1, m2, ?_, ?_⟩ <;>
          simp only [reapExpired, hrm, deleteTimeoutFile, hany, hdel, if_true,
            hfile, hfilb]
        · exact hm
        · exact heq

theorem collectExpired_eq_ok (now : Int) :
    ∀ ts : List DirEntry, (∀ x ∈ ts, x.regular = true) → (∀ x ∈ ts, x.content ≠ none) →
      collectExpired now ts = .ok (expiredNames now ts) := by
  intro ts
  induction ts with
  | nil => intro _ _; rfl
  | cons x rest ih =>
    intro hreg hcontent
    have hrec := ih (fun y hy => hreg y (List.mem_cons_of_mem _ hy))
      (fun y hy => hcontent y (List.mem_cons_of_mem _ hy))
    have hx : x.regular = true := hreg x (List.mem_cons_self _ _)
    cases hc : x.content with
    | none => exact absurd hc (hcontent x (List.mem_cons_self _ _))
    | some exp =>
      simp only [collectExpired, if_pos hx, hc, hrec]
      unfold expiredNames
      rw [List.filter_cons]
      by_cases hnow : now ≥ exp
      · rw [if_pos hnow, if_pos (by simp [hx, hc, hnow])]
        rw [List.map_cons]
      · rw [if_neg hnow, if_neg (by simp [hc, hnow])]

theorem not_mem_foldl_erase_mono {a : String} :
    ∀ (exp : List String) (l : List String), a ∉ l →
      a ∉ List.foldl List.erase l exp := by
  intro exp
  induction exp with
  | nil => intro l h; exact h
  | cons x rest ih =>
    intro l h
    rw [List.foldl_cons]
    exact ih (l.erase x) (fun hc => h (List.mem_of_mem_erase hc))

theorem not_mem_foldl_erase_self {a : String} :
    ∀ (exp : List String) (l : List String), a ∈ exp → l.Nodup →
      a ∉ List.foldl List.erase l exp := by
  intro exp
  induction exp with
  | nil => intro l h; simp at h
  | cons x rest ih =>
    intro l hmem hnd
    rw [List.foldl_cons]
    rcases List.mem_cons.mp hmem with rfl | hmem2
    · exact not_mem_foldl_erase_mono rest (l.erase a) hnd.not_mem_erase
    · exact ih (l.erase x) hmem2 (hnd.erase x)

theorem mem_foldl_erase_iff {a : String} :
    ∀ (exp : List String) (l : List String), a ∉ exp →
      (a ∈ List.foldl List.erase l exp ↔ a ∈ l) := by
  intro exp
  induction exp with
  | nil => intro l _; exact Iff.rfl
  | cons x rest ih =>
    intro l hnmem
    rw [List.foldl_cons]
    have hax : a ≠ x := fun hc => hnmem (hc ▸ List.mem_cons_self _ _)
    rw [ih (l.erase x) (fun hc => hnmem (List.mem_cons_of_mem _ hc))]
    exact List.mem_erase_of_ne hax

theorem nodup_foldl_erase :
    ∀ (exp : List String) (l : List String), l.Nodup →
      (List.foldl List.erase l exp).Nodup := by
  intro exp
  induction exp with
  | nil => intro l h; exact h
  | cons x rest ih => intro l h; exact ih (l.erase x) (h.erase x)

theorem reapExpired_run (hookOk : String → Bool) :
    ∀ (exp : List String) (st : ScanState) (addrs : List String),
      (∀ a ∈ exp, hookOk a = true) →
      readAddressFile st.watchlist = .ok addrs →
      exp.Nodup →
      (∀ a ∈ exp, (st.timeouts.any fun x => decide (x.name = a)) = true) →
      ∃ wl1,
        reapExpired hookOk exp st =
          (⟨wl1, st.timeouts.filter fun x => decide (x.name ∉ exp)⟩, none) ∧
        readAddressFile wl1 = .ok (List.foldl List.erase addrs exp) := by
  intro exp
  induction exp with
  | nil =>
    intro st addrs _ hwl _ _
    refine ⟨st.watchlist, ?_, hwl⟩
    have : (st.timeouts.filter fun x => decide (x.name ∉ ([] : List String))) =
        st.timeouts := by simp
    rw [this]
    rfl
  | cons a rest ih =>
    intro st addrs hhook hwl hnd hpres
    have hha : hookOk a = true := hhook a (List.mem_cons_self _ _)
    have hmid : ∃ wlmid, removeAddress (hookOk a) st.watchlist a =
        .ok ((if a ∈ addrs then "deleted from" else "not present in"), wlmid) ∧
        readAddressFile wlmid = .ok (addrs.erase a) := by
      rw [hha]
      by_cases hmem : a ∈ addrs
      · refine ⟨writeAddressFile (addrs.erase a), ?_, ?_⟩
        · rw [if_pos hmem]
          exact removeAddress_present hwl hmem
        · exact readAddressFile_writeAddressFile _ fun b hb =>
            readAddressFile_good hwl b ((List.erase_sublist a addrs).mem hb)
      · refine ⟨st.watchlist, ?_, ?_⟩
        · rw [if_neg hmem]
          exact removeAddress_absent hwl hmem
        · rw [List.erase_of_not_mem hmem]
          exact hwl
    obtain ⟨wlmid, hrm, hparse⟩ := hmid
    have hdel : ((st.timeouts.any fun x => decide (x.name = a))) = true :=
      hpres a (List.mem_cons_self _ _)
    have hrest := ih ⟨wlmid, st.timeouts.filter fun x => x.name ≠ a⟩
      (addrs.erase a)
      (fun b hb => hhook b (List.mem_cons_of_mem _ hb))
      hparse
      (List.Nodup.of_cons hnd)
      (by
        intro b hb
        have hba : b ≠ a := fun hc => (List.nodup_cons.mp hnd).1 (hc ▸ hb)
        have := hpres b (List.mem_cons_of_mem _ hb)
        rw [List.any_eq_true] at this ⊢
        obtain ⟨x, hx, hxb⟩ := this
        refine ⟨x, List.mem_filter.mpr ⟨hx, ?_⟩, hxb⟩
        have hxname : x.name = b := by simpa using hxb
        simp [hxname, hba])
    obtain ⟨wl1, hrun, hparse1⟩ := hrest
    refine ⟨wl1, ?_, by rw [List.foldl_cons]; exact hparse1⟩
    have hstep : reapExpired hookOk (a :: rest) st =
        reapExpired hookOk rest ⟨wlmid, st.timeouts.filter fun x => x.name ≠ a⟩ := by
      simp only [reapExpired, hrm, deleteTimeoutFile, hdel, if_true]
    rw [hstep, hrun]
    have hfil : ((st.timeouts.filter fun x => x.name ≠ a).filter
        fun x => decide (x.name ∉ rest)) =
        st.timeouts.filter fun x => decide (x.name ∉ a :: rest) := by
      rw [List.filter_filter]
      refine List.filter_congr ?_
      intro x _
      by_cases hxa : x.name = a
      · simp [hxa, List.mem_cons]
      · by_cases hxr : x.name ∈ rest <;> simp [hxa, hxr, List.mem_cons]
    rw [hfil]

theorem processMatch_preserves (now timeout : Int) (st : ScanState) (addr : String)
    (addrs : List String)
    (hwl : readAddressFile st.watchlist = .ok addrs) (hgood : goodAddr addr) :
    ∃ st1 action addrs1, processMatch true now timeout st addr = (st1, .ok action) ∧
      readAddressFile st1.watchlist = .ok addrs1 := by
  by_cases hmem : addr ∈ addrs
  · refine ⟨⟨st.watchlist, upsertTimeout st.timeouts addr (now + timeout)⟩,
      "already present in", addrs, ?_, hwl⟩
    unfold processMatch writeTimeoutFile
    simp only [addAddress_present hwl hmem]
  · refine ⟨⟨writeAddressFile (addrs ++ [addr]),
      upsertTimeout st.timeouts addr (now + timeout)⟩, "added to", addrs ++ [addr], ?_, ?_⟩
    · unfold processMatch writeTimeoutFile
      simp only [addAddress_absent hwl hmem]
    · refine readAddressFile_writeAddressFile _ ?_
      intro b hb
      rcases List.mem_append.mp hb with h1 | h1
      · exact readAddressFile_good hwl b h1
      · rw [List.mem_singleton.mp h1]
        exact hgood

/- ### Claim theorems -/

/-- Claim C4: adding is idempotent — re-matching an address already present
in the Watchlist Store overwrites its timeout record with the fresh
expiration `now + timeout` but leaves the watchlist file content unchanged
(`addAddress` reports "already present in" and performs no write), so the
address still appears exactly once. -/
theorem add_idempotent (now timeout : Int) (st : ScanState) (addr : String)
    (addrs : List String)
    (hr : readAddressFile st.watchlist = .ok addrs) (hmem : addr ∈ addrs)
    (hcount : addrs.count addr = 1) :
    processMatch true now timeout st addr =
      (⟨st.watchlist, upsertTimeout st.timeouts addr (now + timeout)⟩,
        .ok "already present in") ∧
    lookupTimeout (upsertTimeout st.timeouts addr (now + timeout)) addr =
      some (now + timeout) ∧
    ∃ addrs1, readAddressFile (processMatch true now timeout st addr).1.watchlist =
      .ok addrs1 ∧ addrs1.count addr = 1 := by
  have h1 : processMatch true now timeout st addr =
      (⟨st.watchlist, upsertTimeout st.timeouts addr (now + timeout)⟩,
        .ok "already present in") := by
    unfold processMatch writeTimeoutFile
    simp only [addAddress_present hr hmem]
  exact ⟨h1, lookupTimeout_upsert _ _ _, addrs, by rw [h1]; exact hr, hcount⟩

/-- Claim C4 witness at a concrete state. -/
theorem add_idempotent_witness :
    processMatch true 100 30 ⟨"1.2.3.4\n", [⟨"1.2.3.4", true, some 90⟩]⟩ "1.2.3.4" =
      (⟨"1.2.3.4\n", upsertTimeout [⟨"1.2.3.4", true, some 90⟩] "1.2.3.4" (100 + 30)⟩,
        .ok "already present in") ∧
    lookupTimeout (upsertTimeout [⟨"1.2.3.4", true, some 90⟩] "1.2.3.4" (100 + 30)) "1.2.3.4" =
      some (100 + 30) ∧
    ∃ addrs1,
      readAddressFile (processMatch true 100 30
        ⟨"1.2.3.4\n", [⟨"1.2.3.4", true, some 90⟩]⟩ "1.2.3.4").1.watchlist = .ok addrs1 ∧
      addrs1.count "1.2.3.4" = 1 :=
  add_idempotent 100 30 ⟨"1.2.3.4\n", [⟨"1.2.3.4", true, some 90⟩]⟩ "1.2.3.4"
    ["1.2.3.4"] (by rfl) (by decide) (by decide)

/-- Claim C5: when the add hook fails, the matched address's timeout record
has already been refreshed and is not rolled back, the worker returns the
error, and the Watchlist Store content is untouched (the hook runs before
the watchlist read/append step, so the address is never appended). -/
theorem add_hook_failure (now timeout : Int) (st : ScanState) (addr : String) :
    processMatch false now timeout st addr =
      (⟨st.watchlist, upsertTimeout st.timeouts addr (now + timeout)⟩,
        .error "scanner: addAddress: add hook failed") ∧
    lookupTimeout (processMatch false now timeout st addr).1.timeouts addr =
      some (now + timeout) ∧
    (processMatch false now timeout st addr).1.watchlist = st.watchlist := by
  have h1 : processMatch false now timeout st addr =
      (⟨st.watchlist, upsertTimeout st.timeouts addr (now + timeout)⟩,
        .error "scanner: addAddress: add hook failed") := by
    unfold processMatch writeTimeoutFile addAddress
    rfl
  refine ⟨h1, ?_, by rw [h1]⟩
  rw [h1]
  exact lookupTimeout_upsert _ _ _

/-- Claim C6 counterexample: the layout invariant fails as stated. A
watchlist file holding a duplicated address is accepted at startup, and a
successful write of `addAddress` preserves the duplicate; and removing the
last remaining address writes the file `"\n"`, which consists of a single
blank line. -/
theorem watchlist_layout_cex :
    (addAddress true "1.2.3.4\n1.2.3.4\n" "5.6.7.8" =
        .ok ("added to", "1.2.3.4\n1.2.3.4\n5.6.7.8\n") ∧
      ¬ (splitLines "1.2.3.4\n1.2.3.4\n5.6.7.8\n").Nodup) ∧
    (removeAddress true "1.2.3.4\n" "1.2.3.4" = .ok ("deleted from", "\n") ∧
      "" ∈ splitLines "\n") := by
  exact ⟨⟨by rfl, by decide⟩, ⟨by rfl, by decide⟩⟩

/-- Claim C6 (amended): after every successful `addAddress` or
`removeAddress` that writes the file, the file holds the resulting address
list one entry per line with a trailing newline; `addAddress` appends the
new entry at the end and `removeAddress` deletes the first occurrence,
preserving the relative order of survivors; duplicate-freedom is preserved
(not created) by both; and the file contains no blank line except in the
single case of removing the last surviving address, where the written file
is exactly one empty line, which reads back as the empty address list. -/
theorem watchlist_layout (content addr : String) (addrs : List String)
    (hr : readAddressFile content = .ok addrs) (hgood : goodAddr addr) :
    (addr ∉ addrs →
      addAddress true content addr = .ok ("added to", writeAddressFile (addrs ++ [addr])) ∧
      splitLines (writeAddressFile (addrs ++ [addr])) = addrs ++ [addr] ∧
      "" ∉ splitLines (writeAddressFile (addrs ++ [addr])) ∧
      (writeAddressFile (addrs ++ [addr])).data.getLast? = some '\n' ∧
      (addrs.Nodup → (addrs ++ [addr]).Nodup)) ∧
    (addr ∈ addrs →
      removeAddress true content addr =
        .ok ("deleted from", writeAddressFile (addrs.erase addr)) ∧
      (addrs.erase addr).Sublist addrs ∧
      (addrs.Nodup → (addrs.erase addr).Nodup) ∧
      (writeAddressFile (addrs.erase addr)).data.getLast? = some '\n' ∧
      (addrs.erase addr ≠ [] →
        splitLines (writeAddressFile (addrs.erase addr)) = addrs.erase addr ∧
        "" ∉ splitLines (writeAddressFile (addrs.erase addr))) ∧
      (addrs.erase addr = [] →
        splitLines (writeAddressFile (addrs.erase addr)) = [""] ∧
        readAddressFile (writeAddressFile (addrs.erase addr)) = .ok [])) := by
  have hgoodall := readAddressFile_good hr
  constructor
  · intro hmem
    have hgoodapp : ∀ a ∈ addrs ++ [addr], goodAddr a := by
      intro a ha
      rcases List.mem_append.mp ha with h1 | h1
      · exact hgoodall a h1
      · rw [List.mem_singleton.mp h1]; exact hgood
    have hsplit : splitLines (writeAddressFile (addrs ++ [addr])) = addrs ++ [addr] :=
      splitLines_writeAddressFile _ (by simp) (fun a ha => (hgoodapp a ha).2.1)
    refine ⟨addAddress_absent hr hmem, hsplit, ?_, ?_, ?_⟩
    · rw [hsplit]
      intro hcon
      exact (hgoodapp "" hcon).1 rfl
    · unfold writeAddressFile
      exact List.getLast?_concat _
    · intro hnd
      simp [List.nodup_append, hnd, hmem]
  · intro hmem
    have hgoodsub : ∀ a ∈ addrs.erase addr, goodAddr a := fun a ha =>
      hgoodall a (List.erase_sublist addr addrs |>.mem ha)
    refine ⟨removeAddress_present hr hmem, List.erase_sublist addr addrs,
      fun hnd => hnd.erase addr, ?_, ?_, ?_⟩
    · unfold writeAddressFile
      exact List.getLast?_concat _
    · intro hne
      have hsplit : splitLines (writeAddressFile (addrs.erase addr)) = addrs.erase addr :=
        splitLines_writeAddressFile _ hne (fun a ha => (hgoodsub a ha).2.1)
      refine ⟨hsplit, ?_⟩
      rw [hsplit]
      intro hcon
      exact (hgoodsub "" hcon).1 rfl
    · intro hempty
      rw [hempty]
      exact ⟨rfl, rfl⟩

/-- Claim C6 witness: a concrete append and a concrete removal. -/
theorem watchlist_layout_witness :
    (("5.6.7.8" : String) ∉ (["1.2.3.4"] : List String) →
      addAddress true "1.2.3.4\n" "5.6.7.8" =
        .ok ("added to", writeAddressFile (["1.2.3.4"] ++ ["5.6.7.8"])) ∧
      splitLines (writeAddressFile (["1.2.3.4"] ++ ["5.6.7.8"])) = ["1.2.3.4"] ++ ["5.6.7.8"] ∧
      "" ∉ splitLines (writeAddressFile (["1.2.3.4"] ++ ["5.6.7.8"])) ∧
      (writeAddressFile (["1.2.3.4"] ++ ["5.6.7.8"])).data.getLast? = some '\n' ∧
      ((["1.2.3.4"] : List String).Nodup → ((["1.2.3.4"] ++ ["5.6.7.8"]) : List String).Nodup)) ∧
    (("5.6.7.8" : String) ∈ (["1.2.3.4"] : List String) →
      removeAddress true "1.2.3.4\n" "5.6.7.8" =
        .ok ("deleted from", writeAddressFile (["1.2.3.4"].erase "5.6.7.8")) ∧
      (["1.2.3.4"].erase "5.6.7.8").Sublist ["1.2.3.4"] ∧
      ((["1.2.3.4"] : List String).Nodup → (["1.2.3.4"].erase "5.6.7.8").Nodup) ∧
      (writeAddressFile (["1.2.3.4"].erase "5.6.7.8")).data.getLast? = some '\n' ∧
      (["1.2.3.4"].erase "5.6.7.8" ≠ [] →
        splitLines (writeAddressFile (["1.2.3.4"].erase "5.6.7.8")) =
          ["1.2.3.4"].erase "5.6.7.8" ∧
        "" ∉ splitLines (writeAddressFile (["1.2.3.4"].erase "5.6.7.8"))) ∧
      (["1.2.3.4"].erase "5.6.7.8" = [] →
        splitLines (writeAddressFile (["1.2.3.4"].erase "5.6.7.8")) = [""] ∧
        readAddressFile (writeAddressFile (["1.2.3.4"].erase "5.6.7.8")) = .ok [])) :=
  watchlist_layout "1.2.3.4\n" "5.6.7.8" ["1.2.3.4"] (by rfl)
    (by unfold goodAddr; refine ⟨by decide, by decide, by decide, by decide⟩)

/-- Claim C8: removing is idempotent — removing an address absent from the
Watchlist Store returns without error, reports "not present in", and leaves
the file content untouched (no write happens). -/
theorem remove_absent_noop (content addr : String) (addrs : List String)
    (hr : readAddressFile content = .ok addrs) (hmem : addr ∉ addrs) :
    removeAddress true content addr = .ok ("not present in", content) :=
  removeAddress_absent hr hmem

/-- Claim C8 witness at a concrete store. -/
theorem remove_absent_noop_witness :
    removeAddress true "1.2.3.4\n" "5.6.7.8" = .ok ("not present in", "1.2.3.4\n") :=
  remove_absent_noop "1.2.3.4\n" "5.6.7.8" ["1.2.3.4"] (by rfl) (by decide)

/-- Claim C9: the address-shape check on watchlist lines is an unanchored
substring match of `((?:\d{1,3}\.){3}\d{1,3})` with no numeric range
validation: every trimmed non-empty line the pattern matches anywhere is
accepted, and the entire trimmed line — not the matching substring — is
kept as the address; in particular "999.999.999.999" and
"prefix 1.2.3.4 suffix" match while "1.2.3" does not. -/
theorem shape_check_substring (content : String)
    (h : ∀ l ∈ splitLines content, trimSpace l = "" ∨ ipMatchString (trimSpace l) = true) :
    readAddressFile content =
      .ok (((splitLines content).map trimSpace).filter (fun a => a ≠ "")) ∧
    ipMatchString "999.999.999.999" = true ∧
    ipMatchString "prefix 1.2.3.4 suffix" = true ∧
    ipMatchString "1.2.3" = false :=
  ⟨readAddrLines_keeps _ h, by decide, by decide, by decide⟩

/-- Claim C9 witness: an out-of-range address and a line with surrounding
text are both accepted whole. -/
theorem shape_check_substring_witness :
    readAddressFile "999.999.999.999\n  prefix 1.2.3.4 suffix \n" =
      .ok (((splitLines "999.999.999.999\n  prefix 1.2.3.4 suffix \n").map trimSpace).filter
        (fun a => a ≠ "")) ∧
    ipMatchString "999.999.999.999" = true ∧
    ipMatchString "prefix 1.2.3.4 suffix" = true ∧
    ipMatchString "1.2.3" = false :=
  shape_check_substring "999.999.999.999\n  prefix 1.2.3.4 suffix \n" (by decide)

/-- Claim C7: if the Watchlist Store file holds a non-empty line that does
not match the address shape, `NewScanner` fails with an error naming the
offending (trimmed) line, and no scanner state is constructed. -/
theorem construction_rejects_malformed (now timeout : Int) (content : String)
    (ts : List DirEntry)
    (hbad : ∃ l ∈ splitLines content, trimSpace l ≠ "" ∧ ipMatchString (trimSpace l) = false) :
    ∃ b, b ≠ "" ∧ ipMatchString b = false ∧ (∃ l ∈ splitLines content, b = trimSpace l) ∧
      initScanner now timeout content ts = .error (badAddressMsg b) := by
  obtain ⟨b, h1, h2, h3, h4⟩ := readAddrLines_bad _ hbad
  refine ⟨b, h1, h2, h3, ?_⟩
  unfold initScanner readAddressFile
  rw [h4]

/-- Claim C7 witness: the literal line "not-an-ip" aborts construction. -/
theorem construction_rejects_malformed_witness :
    ∃ b, b ≠ "" ∧ ipMatchString b = false ∧
      (∃ l ∈ splitLines "not-an-ip\n", b = trimSpace l) ∧
      initScanner 0 5 "not-an-ip\n" [] = .error (badAddressMsg b) :=
  construction_rejects_malformed 0 5 "not-an-ip\n" [] (by decide)

/-- Claim C3: for every log line, the Log Tail Worker applies ALL configured
patterns in configured order (the loop has no break after a match): every
pattern whose match yields a first capturing group has that group processed
as an address, so a line matched by several patterns is processed once per
matching pattern — the processed-address trace equals the in-order list of
all patterns' captures. Stated under succeeding hooks and a well-formed
Watchlist Store. -/
theorem scanner_all_patterns (hookOk : String → Bool) (now timeout : Int)
    (pats : List Pattern) (line : String) (st : ScanState) (addrs : List String)
    (hwl : readAddressFile st.watchlist = .ok addrs)
    (hhook : ∀ a, hookOk a = true)
    (hgood : ∀ p ∈ pats, ∀ a, p line = some a → goodAddr a) :
    (processLine hookOk now timeout pats line st).2.1 =
      pats.filterMap (fun p => p line) ∧
    (processLine hookOk now timeout pats line st).2.2 = none := by
  induction pats generalizing st addrs with
  | nil => exact ⟨rfl, rfl⟩
  | cons p rest ih =>
    cases hp : p line with
    | none =>
      have hstep : processLine hookOk now timeout (p :: rest) line st =
          processLine hookOk now timeout rest line st := by
        simp only [processLine, hp]
      have hfm : List.filterMap (fun p => p line) (p :: rest) =
          List.filterMap (fun p => p line) rest := by
        simp [List.filterMap_cons, hp]
      rw [hstep, hfm]
      exact ih st addrs hwl fun q hq => hgood q (List.mem_cons_of_mem _ hq)
    | some addr =>
      have hg : goodAddr addr := hgood p (List.mem_cons_self _ _) addr hp
      obtain ⟨st1, action, addrs1, hpm, hparse1⟩ :=
        processMatch_preserves now timeout st addr addrs hwl hg
      have hpm2 : processMatch (hookOk addr) now timeout st addr = (st1, .ok action) := by
        rw [hhook addr]
        exact hpm
      have ihr := ih st1 addrs1 hparse1 fun q hq => hgood q (List.mem_cons_of_mem _ hq)
      rcases hrec : processLine hookOk now timeout rest line st1 with ⟨st2, trace, err⟩
      rw [hrec] at ihr
      have hstep : processLine hookOk now timeout (p :: rest) line st =
          (st2, addr :: trace, err) := by
        simp only [processLine, hp, hpm2, hrec]
      have hfm : List.filterMap (fun p => p line) (p :: rest) =
          addr :: List.filterMap (fun p => p line) rest := by
        simp [List.filterMap_cons, hp]
      rw [hstep, hfm]
      refine ⟨?_, ihr.2⟩
      show addr :: trace = addr :: List.filterMap (fun p => p line) rest
      exact congrArg (List.cons addr) ihr.1

/-- Claim C3 witness: two patterns both matching the same line, plus one
non-matching pattern between them — all three are applied and the two
captures are processed in order. -/
theorem scanner_all_patterns_witness :
    (processLine (fun _ => true) 100 30
        [fun _ => some "1.2.3.4", fun _ => none, fun _ => some "5.6.7.8"]
        "x 1.2.3.4 y 5.6.7.8" ⟨"\n", []⟩).2.1 =
      ([fun _ => some "1.2.3.4", fun _ => none,
        fun _ => some "5.6.7.8"] : List Pattern).filterMap
        (fun p => p "x 1.2.3.4 y 5.6.7.8") ∧
    (processLine (fun _ => true) 100 30
        [fun _ => some "1.2.3.4", fun _ => none, fun _ => some "5.6.7.8"]
        "x 1.2.3.4 y 5.6.7.8" ⟨"\n", []⟩).2.2 = none :=
  scanner_all_patterns (fun _ => true) 100 30
    [fun _ => some "1.2.3.4", fun _ => none, fun _ => some "5.6.7.8"]
    "x 1.2.3.4 y 5.6.7.8" ⟨"\n", []⟩ [] (by rfl) (fun _ => rfl)
    (by
      intro q hq a ha
      fin_cases hq
      · simp only at ha
        cases ha
        unfold goodAddr
        exact ⟨by decide, by decide, by decide, by decide⟩
      · simp only at ha
        cases ha
      · simp only at ha
        cases ha
        unfold goodAddr
        exact ⟨by decide, by decide, by decide, by decide⟩)

/-- Claim C2: the reaper expiry boundary is non-strict — at a sweep tick,
every regular timeout record whose expiration is less than or equal to the
current time is classified expired, and by the end of the tick its address
is gone from the Watchlist Store and its timeout file is deleted; every
record whose expiration is strictly in the future keeps both its timeout
entry and its watchlist membership unchanged. Stated for a steady-state
store (regular parseable records with distinct names, duplicate-free
parseable watchlist, succeeding delete hooks). -/
theorem reaper_boundary (hookOk : String → Bool) (now : Int) (wl : String)
    (ts : List DirEntry) (addrs0 : List String)
    (hreg : ∀ x ∈ ts, x.regular = true)
    (hcontent : ∀ x ∈ ts, x.content ≠ none)
    (hnames : (ts.map DirEntry.name).Nodup)
    (hwl : readAddressFile wl = .ok addrs0)
    (hnd : addrs0.Nodup)
    (hhook : ∀ a, hookOk a = true) :
    (sweepTick hookOk now ⟨wl, ts⟩).2 = none ∧
    ∃ addrs1,
      readAddressFile (sweepTick hookOk now ⟨wl, ts⟩).1.watchlist = .ok addrs1 ∧
      ∀ e ∈ ts, ∀ exp, e.content = some exp →
        (exp ≤ now →
          (∀ x ∈ (sweepTick hookOk now ⟨wl, ts⟩).1.timeouts, x.name ≠ e.name) ∧
          e.name ∉ addrs1) ∧
        (now < exp →
          e ∈ (sweepTick hookOk now ⟨wl, ts⟩).1.timeouts ∧
          (e.name ∈ addrs1 ↔ e.name ∈ addrs0)) := by
  have hcol := collectExpired_eq_ok now ts hreg hcontent
  have hexpnd : (expiredNames now ts).Nodup := by
    unfold expiredNames
    exact hnames.sublist ((List.filter_sublist _).map DirEntry.name)
  have hpres : ∀ a ∈ expiredNames now ts,
      (ts.any fun x => decide (x.name = a)) = true := by
    intro a ha
    obtain ⟨x, hx, rfl⟩ := List.mem_map.mp ha
    rw [List.any_eq_true]
    exact ⟨x, (List.mem_filter.mp hx).1, by simp⟩
  obtain ⟨wl1, hrun, hparse⟩ := reapExpired_run hookOk (expiredNames now ts)
    ⟨wl, ts⟩ addrs0 (fun a _ => hhook a) hwl hexpnd hpres
  have hsweep : sweepTick hookOk now ⟨wl, ts⟩ =
      (⟨wl1, ts.filter fun x => decide (x.name ∉ expiredNames now ts)⟩, none) := by
    unfold sweepTick
    rw [hcol]
    exact hrun
  rw [hsweep]
  refine ⟨rfl, List.foldl List.erase addrs0 (expiredNames now ts), hparse, ?_⟩
  intro e he exp hc
  constructor
  · intro hle
    have hmemexp : e.name ∈ expiredNames now ts := by
      unfold expiredNames
      refine List.mem_map.mpr ⟨e, List.mem_filter.mpr ⟨he, ?_⟩, rfl⟩
      have hge : now ≥ exp := hle
      simp [hreg e he, hc, hge]
    constructor
    · intro x hx hcontra
      have hxfil := (List.mem_filter.mp hx).2
      rw [decide_eq_true_iff] at hxfil
      exact hxfil (hcontra ▸ hmemexp)
    · exact not_mem_foldl_erase_self _ addrs0 hmemexp hnd
  · intro hlt
    have hnotexp : e.name ∉ expiredNames now ts := by
      intro hcontra
      obtain ⟨x, hx, hxe⟩ := List.mem_map.mp hcontra
      have hxts := (List.mem_filter.mp hx).1
      have hxp := (List.mem_filter.mp hx).2
      have hxeq : x = e := List.inj_on_of_nodup_map hnames hxts he hxe
      subst hxeq
      rw [hc] at hxp
      simp only [Bool.and_eq_true, decide_eq_true_eq] at hxp
      omega
    constructor
    · exact List.mem_filter.mpr ⟨he, decide_eq_true hnotexp⟩
    · exact mem_foldl_erase_iff _ addrs0 hnotexp

/-- Claim C2 witness: two records, one at the exact boundary (expiration =
now, reaped) and one in the future (kept). -/
theorem reaper_boundary_witness :
    (sweepTick (fun _ => true) 10
        ⟨"1.2.3.4\n5.6.7.8\n", [⟨"1.2.3.4", true, some 10⟩, ⟨"5.6.7.8", true, some 20⟩]⟩).2 =
      none ∧
    ∃ addrs1,
      readAddressFile (sweepTick (fun _ => true) 10
          ⟨"1.2.3.4\n5.6.7.8\n",
            [⟨"1.2.3.4", true, some 10⟩, ⟨"5.6.7.8", true, some 20⟩]⟩).1.watchlist =
        .ok addrs1 ∧
      ∀ e ∈ [(⟨"1.2.3.4", true, some 10⟩ : DirEntry), ⟨"5.6.7.8", true, some 20⟩],
        ∀ exp, e.content = some exp →
          (exp ≤ 10 →
            (∀ x ∈ (sweepTick (fun _ => true) 10
                ⟨"1.2.3.4\n5.6.7.8\n",
                  [⟨"1.2.3.4", true, some 10⟩, ⟨"5.6.7.8", true, some 20⟩]⟩).1.timeouts,
              x.name ≠ e.name) ∧
            e.name ∉ addrs1) ∧
          (10 < exp →
            e ∈ (sweepTick (fun _ => true) 10
                ⟨"1.2.3.4\n5.6.7.8\n",
                  [⟨"1.2.3.4", true, some 10⟩, ⟨"5.6.7.8", true, some 20⟩]⟩).1.timeouts ∧
            (e.name ∈ addrs1 ↔ e.name ∈ ["1.2.3.4", "5.6.7.8"])) :=
  reaper_boundary (fun _ => true) 10 "1.2.3.4\n5.6.7.8\n"
    [⟨"1.2.3.4", true, some 10⟩, ⟨"5.6.7.8", true, some 20⟩] ["1.2.3.4", "5.6.7.8"]
    (by decide) (by decide) (by decide) (by rfl) (by decide) (fun _ => rfl)

/-- Claim C10: the reaper considers only regular files: a non-regular
directory entry (subdirectory, device, symlink) in the Timeout Store is
silently skipped on every sweep — it is never read or parsed (even with
unparseable content it causes no error), never classified expired, and never
deleted: the sweep returns exactly the result it would produce without the
entry, with the entry still present, in place, in the directory. -/
theorem reaper_skips_nonregular (hookOk : String → Bool) (now : Int) (wl : String)
    (l1 l2 : List DirEntry) (e : DirEntry)
    (hreg : e.regular = false)
    (hname : ∀ x ∈ l1 ++ l2, x.name ≠ e.name) :
    collectExpired now (l1 ++ e :: l2) = collectExpired now (l1 ++ l2) ∧
    ∃ m1 m2,
      (sweepTick hookOk now ⟨wl, l1 ++ l2⟩).1.timeouts = m1 ++ m2 ∧
      sweepTick hookOk now ⟨wl, l1 ++ e :: l2⟩ =
        (⟨(sweepTick hookOk now ⟨wl, l1 ++ l2⟩).1.watchlist, m1 ++ e :: m2⟩,
          (sweepTick hookOk now ⟨wl, l1 ++ l2⟩).2) := by
  have hskip := collectExpired_skip now e hreg l1 l2
  refine ⟨hskip, ?_⟩
  unfold sweepTick
  rw [hskip]
  cases hcol : collectExpired now (l1 ++ l2) with
  | error err => exact ⟨l1, l2, rfl, rfl⟩
  | ok expired =>
    have hne : ∀ a ∈ expired, a ≠ e.name := by
      intro a ha hcontra
      obtain ⟨x, hx, hxa, _⟩ := collectExpired_names now (l1 ++ l2) expired hcol a ha
      exact hname x hx (hxa.trans hcontra)
    exact reapExpired_middle hookOk e expired wl l1 l2 hne

/-- Claim C10 witness: a subdirectory with unreadable content sits between
two expired regular records and survives the sweep untouched. -/
theorem reaper_skips_nonregular_witness :
    collectExpired 10
        ([⟨"1.2.3.4", true, some 5⟩] ++ ⟨"subdir", false, none⟩ :: [⟨"5.6.7.8", true, some 7⟩]) =
      collectExpired 10 ([⟨"1.2.3.4", true, some 5⟩] ++ [⟨"5.6.7.8", true, some 7⟩]) ∧
    ∃ m1 m2,
      (sweepTick (fun _ => true) 10
          ⟨"1.2.3.4\n5.6.7.8\n", [⟨"1.2.3.4", true, some 5⟩] ++ [⟨"5.6.7.8", true, some 7⟩]⟩).1.timeouts =
        m1 ++ m2 ∧
      sweepTick (fun _ => true) 10
          ⟨"1.2.3.4\n5.6.7.8\n",
            [⟨"1.2.3.4", true, some 5⟩] ++ ⟨"subdir", false, none⟩ :: [⟨"5.6.7.8", true, some 7⟩]⟩ =
        (⟨(sweepTick (fun _ => true) 10
            ⟨"1.2.3.4\n5.6.7.8\n", [⟨"1.2.3.4", true, some 5⟩] ++ [⟨"5.6.7.8", true, some 7⟩]⟩).1.watchlist,
            m1 ++ ⟨"subdir", false, none⟩ :: m2⟩,
          (sweepTick (fun _ => true) 10
            ⟨"1.2.3.4\n5.6.7.8\n", [⟨"1.2.3.4", true, some 5⟩] ++ [⟨"5.6.7.8", true, some 7⟩]⟩).2) :=
  reaper_skips_nonregular (fun _ => true) 10 "1.2.3.4\n5.6.7.8\n"
    [⟨"1.2.3.4", true, some 5⟩] [⟨"5.6.7.8", true, some 7⟩] ⟨"subdir", false, none⟩
    rfl (by decide)

/-- Claim C1: shutdown is idempotent — for any sequence of (lock-serialized)
invocations, only the first performs the teardown: it stores the idempotency
marker, kills/waits the tail subprocess exactly when one is registered
(teardown counter incremented exactly then), and sends one stop notification
to each worker still marked active; the whole sequence of calls equals the
first call alone, and any call that observes the marker returns the state
unchanged. -/
theorem shutdown_idempotent (st : CoordState) (c : String) (cs : List String)
    (h : st.marker = none) :
    List.foldl shutdown st (c :: cs) = shutdown st c ∧
    (shutdown st c).teardownCount =
      st.teardownCount + (if st.tailRegistered then 1 else 0) ∧
    (shutdown st c).tailRegistered = false ∧
    (shutdown st c).stops = st.stops ++
      ((if st.activeReaper then ["reaper"] else []) ++
        (if st.activeScanner then ["scanner"] else []) ++
        (if st.activeHandler then ["handler"] else [])) ∧
    (shutdown st c).marker = some c ∧
    ∀ st2 c2, st2.marker.isSome = true → shutdown st2 c2 = st2 := by
  have hfirst := shutdown_first st c h
  have hmarker : (shutdown st c).marker = some c := by rw [hfirst]
  refine ⟨?_, by rw [hfirst], by rw [hfirst], by rw [hfirst], hmarker,
    fun st2 c2 h2 => shutdown_of_some h2 c2⟩
  rw [List.foldl_cons]
  exact foldl_shutdown_stable cs _ (by rw [hmarker]; rfl)

/-- Claim C1 witness: three serialized callers, tail registered, all workers
active — the teardown runs once and each worker gets one stop. -/
theorem shutdown_idempotent_witness :
    List.foldl shutdown ⟨none, true, true, true, true, 0, []⟩
        ["handler", "reaper", "stop"] =
      shutdown ⟨none, true, true, true, true, 0, []⟩ "handler" ∧
    (shutdown ⟨none, true, true, true, true, 0, []⟩ "handler").teardownCount =
      0 + (if (true : Bool) then 1 else 0) ∧
    (shutdown ⟨none, true, true, true, true, 0, []⟩ "handler").tailRegistered = false ∧
    (shutdown ⟨none, true, true, true, true, 0, []⟩ "handler").stops = [] ++
      ((if (true : Bool) then ["reaper"] else []) ++
        (if (true : Bool) then ["scanner"] else []) ++
        (if (true : Bool) then ["handler"] else [])) ∧
    (shutdown ⟨none, true, true, true, true, 0, []⟩ "handler").marker = some "handler" ∧
    ∀ st2 c2, st2.marker.isSome = true → shutdown st2 c2 = st2 :=
  shutdown_idempotent ⟨none, true, true, true, true, 0, []⟩ "handler"
    ["reaper", "stop"] rfl

end Iplsd
